import Mathlib

set_option autoImplicit false

/-!
Shallow embedding of the `View` component of the cgpm repository
(`src/view.py`): the row-partition ledger (`Zr`, `Nk`), the incremental
incorporate/unincorporate operations, the Gibbs row-transition kernel, the
CRP concentration transition over a log-spaced grid, and the observed and
hypothetical density/simulation queries.

Conventions of the embedding:
* an assignment entry is `Option Nat`: `some k` is cluster label `k`, `none`
  is the NaN sentinel written by `unincorporate_row`;
* cluster sizes `Nk` are integers (Python ints);
* the dataset column for each attached column model is carried inside the
  model as `data : Nat → V` (the source reads `X[rowid, dim.index]`);
* the external Column Model capability ("Dim", from the `gpmcc` package,
  not part of this repository's sources) is modelled from the spec: its
  per-cluster sufficient statistics are the multisets of incorporated
  values, and its predictive log-density and sampler are arbitrary
  functions of those statistics;
* the external Random Source is modelled from the spec as an explicit
  stream of naturals threaded through every stochastic call; a categorical
  draw from `n` log-weights is an arbitrary stream value reduced mod `n`.
-/

namespace Cgpm

/-- Column model ("Dim") attached to a view.  Modelled from the spec: the
Column Model capability is external (`gpmcc` Dim, not under this
repository's sources); it keeps per-cluster sufficient statistics keyed by
the same labels as the view's assignment, here the multiset of values
incorporated into each cluster, together with its column of the dataset. -/
structure Dim (V : Type) where
  data : ℕ → V
  clusters : List (Multiset V)

variable {V : Type} [DecidableEq V]

/-- Modelled from the spec: `dim.incorporate(value, label)` adds the value
to the statistics of cluster `label`; a label equal to the current cluster
count creates a fresh singleton cluster. -/
def Dim.incorporate (d : Dim V) (x : V) (k : ℕ) : Dim V :=
  if k = d.clusters.length then { d with clusters := d.clusters ++ [{x}] }
  else { d with clusters := d.clusters.set k (x ::ₘ d.clusters.getD k 0) }

/-- Modelled from the spec: `dim.unincorporate(value, label)` removes one
occurrence of the value from the statistics of cluster `label`. -/
def Dim.unincorporate (d : Dim V) (x : V) (k : ℕ) : Dim V :=
  { d with clusters := d.clusters.set k ((d.clusters.getD k 0).erase x) }

/-- Modelled from the spec: `dim.bulk_unincorporate(label)` deletes the
statistics of cluster `label` and relabels the higher clusters down. -/
def Dim.bulk_unincorporate (d : Dim V) (k : ℕ) : Dim V :=
  { d with clusters := d.clusters.eraseIdx k }

/-- Smallest strict upper bound of the labels appearing in a partition;
the length of `np.bincount` of that partition. -/
def labelBound (l : List ℕ) : ℕ :=
  l.foldr (fun x m => max (x + 1) m) 0

/-- The length of the bincount of the labels occurring in an
`Option`-valued assignment (vacant entries contribute nothing). -/
def labelBoundOpt (l : List (Option ℕ)) : ℕ :=
  l.foldr (fun z m => match z with | some i => max (i + 1) m | none => m) 0

/-- Modelled from the spec: `dim.bulk_incorporate(values, labels)` rebuilds
the per-cluster statistics so that cluster `k` holds the column values of
exactly the rows labelled `k`. -/
def Dim.bulk_incorporate (d : Dim V) (Zr : List (Option ℕ)) : Dim V :=
  { d with clusters := (List.range (labelBoundOpt Zr)).map (fun k =>
      (((List.range Zr.length).filter (fun i => Zr.getD i none = some k)).map d.data : List V)) }

/-- Translation of `np.bincount` on a list of labels: entry `k` is the
number of occurrences of `k`, up to the largest label present. -/
def bincount (l : List ℕ) : List ℤ :=
  (List.range (labelBound l)).map (fun k => (l.count k : ℤ))

/-- View state: row assignment `Zr` (with `none` as the NaN sentinel),
cluster sizes `Nk`, attached column models, CRP concentration `alpha` and
its construction-time grid. -/
structure View (V : Type) where
  Zr : List (Option ℕ)
  Nk : List ℤ
  dims : List (Dim V)
  alpha : ℝ
  alpha_grid : List ℝ

/-- Per-cluster statistics of the column model attached at index `c`
(`self.dims[col].clusters` in the source). -/
def View.dim_clusters (v : View V) (c : ℕ) : List (Multiset V) :=
  (v.dims.map Dim.clusters).getD c []

/-- Translation of `View.incorporate_row(rowid, k)` with an explicit
cluster label `k` (`view.py` lines 86-112): every attached column model
incorporates the row's value into cluster `k`, `Nk` gains a fresh zero
entry when `k` equals the current cluster count, `Nk[k]` is incremented,
`Zr` grows by one slot when `rowid` is the next fresh row index, and
`Zr[rowid]` is set to `k`. -/
def View.incorporate_row (v : View V) (rowid k : ℕ) : View V :=
  let dims := v.dims.map (fun d => d.incorporate (d.data rowid) k)
  let Nk1 := if k = v.Nk.length then v.Nk ++ [0] else v.Nk
  let Nk2 := Nk1.set k (Nk1.getD k 0 + 1)
  let Zr1 := if rowid = v.Zr.length then v.Zr ++ [some 0] else v.Zr
  let Zr2 := Zr1.set rowid (some k)
  { v with dims := dims, Nk := Nk2, Zr := Zr2 }

/-- Relabeling applied to one assignment entry when cluster `k` is
deleted: labels above `k` shift down by one, others (and the NaN sentinel,
for which every comparison is false) are unchanged (`view.py` line 123). -/
def shiftDown (k : ℕ) : Option ℕ → Option ℕ :=
  Option.map (fun i => if k < i then i - 1 else i)

/-- Translation of `View.unincorporate_row(rowid)` (`view.py` lines
114-127): every column model unincorporates the row's value from its
cluster `k = Zr[rowid]`, `Nk[k]` is decremented, and if the cluster
empties every assignment label above `k` is shifted down by one, entry `k`
of `Nk` is deleted and every column model deletes its statistics for `k`;
finally the row's slot is marked vacant.  When the slot is already vacant
the source raises before mutating the ledger, leaving the state as is. -/
def View.unincorporate_row (v : View V) (rowid : ℕ) : View V :=
  match v.Zr.getD rowid none with
  | none => v
  | some k =>
    let dims := v.dims.map (fun d => d.unincorporate (d.data rowid) k)
    let Nk1 := v.Nk.set k (v.Nk.getD k 0 - 1)
    if Nk1.getD k 0 = 0 then
      let Zr1 := v.Zr.map (shiftDown k)
      { v with dims := dims.map (fun d => d.bulk_unincorporate k),
               Nk := Nk1.eraseIdx k,
               Zr := Zr1.set rowid none }
    else
      { v with dims := dims, Nk := Nk1, Zr := v.Zr.set rowid none }

/-- Translation of `View.reindex_rows()` (`view.py` lines 143-147): the
assignment vector is compacted by dropping the NaN sentinel entries. -/
def View.reindex_rows (v : View V) : View V :=
  { v with Zr := v.Zr.filter (fun z => z.isSome) }

/-- Translation of `View.incorporate_dim(dim)` with `reassign=True`
(`view.py` lines 73-79): the column model is attached after
bulk-incorporating its column under the current assignment. -/
def View.incorporate_dim (v : View V) (d : Dim V) : View V :=
  { v with dims := v.dims ++ [d.bulk_incorporate v.Zr] }

/-- Translation of `View.unincorporate_dim(dim)` (`view.py` lines 81-84):
the column model at index `c` is removed from the view's tracking. -/
def View.unincorporate_dim (v : View V) (c : ℕ) : View V :=
  { v with dims := v.dims.eraseIdx c }

/-- Number of Gibbs candidate slots for a row currently in cluster `k0`
with `m = 1` auxiliary slots: the existing clusters, plus one fresh
singleton unless the row's own cluster has exactly one member (`view.py`
lines 287-295). -/
def View.numCandidates (v : View V) (k0 : ℕ) : ℕ :=
  v.Nk.length + (if v.Nk.getD k0 0 = 1 then 0 else 1)

/-- State update performed by one Gibbs row transition `_transition_row`
(`view.py` lines 281-311) once the new label `z_b` has been drawn: a row
whose draw differs from its current cluster is unincorporated and
reincorporated at the drawn label.  The drawn index `z_b` abstracts the
categorical draw `gu.log_pflip(p_cluster)`; it ranges over the candidate
slots.  A vacant row makes the source raise before mutating anything. -/
def View.transition_row_update (v : View V) (rowid zb : ℕ) : View V :=
  match v.Zr.getD rowid none with
  | none => v
  | some k0 => if zb = k0 then v else (v.unincorporate_row rowid).incorporate_row rowid zb

/-- Truth value of the Python guard `self.Zr[rowid] == np.nan` at the top
of `_transition_row` (`view.py` line 283): the slot holds either an
integer label or the float NaN sentinel, and both `int == nan` and
`nan == nan` are `False` under IEEE comparison, so the guard is `False`
for every entry. -/
def nanSentinelEq (z : Option ℕ) : Bool :=
  match z with
  | some _ => false
  | none => false

/-- Translation of `_transition_row(rowid)` including its skip guard:
`none` is the outcome of the raised `TypeError` when the NaN assignment is
used as a list index (`self.Nk[self.Zr[rowid]]`, `view.py` line 291). -/
def View.transition_row_py (v : View V) (rowid zb : ℕ) : Option (View V) :=
  if nanSentinelEq (v.Zr.getD rowid none) then some v
  else
    match v.Zr.getD rowid none with
    | none => none
    | some _ => some (v.transition_row_update rowid zb)

/-- Translation of the first lines of `View.incorporate_row(rowid, k)` for
an optional label (`view.py` lines 99-101 and 112): the Python variable
`k` is rebound to `0` when the argument is `None` before the transition
list is computed from it, and the rows passed on to `transition_rows` are
returned alongside the updated state. -/
def View.incorporate_row_py (v : View V) (rowid : ℕ) (kOpt : Option ℕ) : View V × List ℕ :=
  let k : Option ℕ := some (kOpt.getD 0)
  let transition : List ℕ := if k = none then [rowid] else []
  (v.incorporate_row rowid (k.getD 0), transition)

/-- Translation of the assertion body of `View._check_partitions`
(`view.py` lines 346-349): positive concentration, and `sum(Nk)` equal to
the **full** length of the assignment vector `Zr`, vacant slots included. -/
def View.check_partitions (v : View V) : Prop :=
  0 < v.alpha ∧ v.Nk.sum = (v.Zr.length : ℤ)

/-- Number of assigned (non-vacant) rows of the view. -/
def View.assignedCount (v : View V) : ℕ :=
  v.Zr.countP (fun z => z.isSome)

/-- Ledger well-formedness: every cluster size equals the number of rows
assigned to that label (sizes beyond the vector read as zero). -/
def View.WF (v : View V) : Prop :=
  ∀ k : ℕ, v.Nk.getD k 0 = (v.Zr.count (some k) : ℤ)

/-- A row slot the incorporate contract accepts: an existing vacant slot,
or the next fresh row index. -/
def View.Unassigned (v : View V) (rowid : ℕ) : Prop :=
  (rowid < v.Zr.length ∧ v.Zr.getD rowid none = none) ∨ rowid = v.Zr.length

/-- Random Source.  Modelled from the spec: a seeded generator, threaded
explicitly through every stochastic call, here an explicit stream of
naturals together with a position. -/
structure Rng where
  stream : ℕ → ℕ
  pos : ℕ

/-- Next raw draw of the Random Source. -/
def Rng.next (r : Rng) : ℕ := r.stream r.pos

/-- Random Source with its position advanced by one draw. -/
def Rng.advance (r : Rng) : Rng := { r with pos := r.pos + 1 }

/-- Modelled from the spec: `gu.log_pflip(log_weights)`, the Random Source
capability drawing one index of the given log-weight sequence; the
returned index is a raw draw reduced modulo the number of weights. -/
def log_pflip (ws : List ℝ) (r : Rng) : ℕ × Rng :=
  (r.next % ws.length, r.advance)

/-- Modelled from the spec: `rng.choice(sequence)` returns one element of
the sequence, here the element at a raw draw reduced modulo its length. -/
noncomputable def Rng.choice (r : Rng) (l : List ℝ) : ℝ × Rng :=
  (l.getD (r.next % l.length) 0, r.advance)

/-- Modelled from the spec: `gu.log_linspace(lo, hi, n)` is the log-spaced
sequence of `n` values whose first element is `lo` and whose last is `hi`. -/
noncomputable def log_linspace (lo hi : ℝ) (n : ℕ) : List ℝ :=
  (List.range n).map (fun (i : ℕ) =>
    Real.exp (Real.log lo + (Real.log hi - Real.log lo) * (i : ℝ) / ((n : ℝ) - 1)))

/-- Concentration grid built at construction (`view.py` line 52):
`gu.log_linspace(1/len(X), len(X), 30)`. -/
noncomputable def mkAlphaGrid (nrows : ℕ) : List ℝ :=
  log_linspace (1 / (nrows : ℝ)) (nrows : ℝ) 30

/-- Modelled from the spec: `gu.logp_crp_unorm(N, K, alpha)`, the CRP
prior log-probability of a partition of `N` rows into `K` clusters as a
function of the candidate concentration (terms constant in the
concentration dropped). -/
noncomputable def logp_crp_unorm (N K : ℕ) (a : ℝ) : ℝ :=
  K * Real.log a + Real.log (Real.Gamma a) - Real.log (Real.Gamma (N + a))

/-- Translation of `View.transition_alpha()` (`view.py` lines 159-164):
the CRP conditional is evaluated at every grid value, one grid index is
drawn from the log-weights, and the concentration is set to that grid
element.  The grid itself is not rebuilt. -/
noncomputable def View.transition_alpha (v : View V) (r : Rng) : View V × Rng :=
  let logps := v.alpha_grid.map (fun a => logp_crp_unorm v.Zr.length v.Nk.length a)
  let ir := log_pflip logps r
  ({ v with alpha := v.alpha_grid.getD ir.1 0 }, ir.2)

/-- Translation of the `View` constructor (`view.py` lines 26-68) for a
supplied row partition `Zr0` over `nrows` rows: the concentration grid is
built once from the row count, the concentration is the supplied value or
a grid element chosen by the Random Source, the assignment is `Zr0`, the
cluster sizes are `np.bincount(Zr0)`, and every supplied column model is
incorporated with reassignment. -/
noncomputable def View.init (data : List (ℕ → V)) (nrows : ℕ) (alphaOpt : Option ℝ)
    (Zr0 : List ℕ) (r : Rng) : View V :=
  let grid := mkAlphaGrid nrows
  let a := match alphaOpt with
    | some a0 => a0
    | none => (Rng.choice r grid).1
  { Zr := Zr0.map some
    Nk := bincount Zr0
    dims := data.map (fun f => Dim.bulk_incorporate ⟨f, []⟩ (Zr0.map some))
    alpha := a
    alpha_grid := grid }

/-- Log-sum-exp reduction of a list of log-values (`scipy.misc.logsumexp`). -/
noncomputable def logsumexp (xs : List ℝ) : ℝ :=
  Real.log (xs.map Real.exp).sum

/-- Modelled from the spec: `gu.log_normalize` shifts log-weights so they
exponentiate to a normalized distribution. -/
noncomputable def log_normalize (xs : List ℝ) : List ℝ :=
  xs.map (fun t => t - logsumexp xs)

/-- Translation of `View._compute_cluster_crp_logps()` (`view.py` lines
329-334): `np.log(Nk + [alpha]) - log(len(Zr) + alpha)`, the CRP log-weight
of joining each existing cluster or a singleton. -/
noncomputable def View.cluster_crp_logps (v : View V) : List ℝ :=
  (v.Nk.map (fun (n : ℤ) => (n : ℝ)) ++ [v.alpha]).map
    (fun t => Real.log t - Real.log ((v.Zr.length : ℝ) + v.alpha))

section Queries

variable (dimLogpdf : List (Multiset V) → V → ℕ → ℝ)
variable (dimSimulate : List (Multiset V) → ℕ → Rng → V × Rng)

/-- Translation of `View._compute_cluster_data_logps(col, x)` (`view.py`
lines 336-341): the predictive log-density of value `x` in column `col`
for every cluster of that column model, including a fresh singleton.  The
predictive itself is the external Column Model capability `dimLogpdf`. -/
noncomputable def View.cluster_data_logps (v : View V) (col : ℕ) (x : V) : List ℝ :=
  (List.range ((v.dim_clusters col).length + 1)).map
    (fun k => dimLogpdf (v.dim_clusters col) x k)

/-- Elementwise accumulation of per-cluster log-densities over a list of
`(column, value)` pairs, starting from the zero vector of length `n`
(`np.zeros(len(logp_crp))` plus `+=` in the source). -/
noncomputable def View.accum_logps (v : View V) (ps : List (ℕ × V)) (n : ℕ) : List ℝ :=
  ps.foldl (fun acc p => List.zipWith (· + ·) acc (v.cluster_data_logps dimLogpdf p.1 p.2))
    (List.replicate n 0)

/-- Translation of `View._logpdf_hypothetical(query, evidence)` (`view.py`
lines 199-224): CRP log-weights plus evidence log-likelihoods are
normalized into a posterior over clusters, query log-likelihoods are added
per cluster, and the result is reduced by log-sum-exp. -/
noncomputable def View.logpdf_hypothetical (v : View V) (query evidence : List (ℕ × V)) : ℝ :=
  let logp_crp := v.cluster_crp_logps
  let logp_evidence := v.accum_logps dimLogpdf evidence logp_crp.length
  let logp_cluster := log_normalize (List.zipWith (· + ·) logp_crp logp_evidence)
  let logp_query := v.accum_logps dimLogpdf query logp_crp.length
  logsumexp (List.zipWith (· + ·) logp_query logp_cluster)

/-- Translation of `View._logpdf_observed(rowid, query, evidence)`
(`view.py` lines 190-197): the sum over queried columns of the predictive
log-density at the row's fixed cluster; the evidence argument is ignored. -/
noncomputable def View.logpdf_observed (v : View V) (rowid : ℕ)
    (query evidence : List (ℕ × V)) : ℝ :=
  (query.map (fun p =>
    dimLogpdf (v.dim_clusters p.1) p.2 ((v.Zr.getD rowid none).getD 0))).sum

/-- Translation of `View._is_hypothetical(rowid)` (`view.py` lines
343-344). -/
def View.is_hypothetical (v : View V) (rowid : ℤ) : Prop :=
  ¬ (0 ≤ rowid ∧ rowid < (v.Zr.length : ℤ))

/-- Translation of `View.logpdf(rowid, query, evidence)` (`view.py` lines
184-188), dispatching on whether the row index is hypothetical. -/
noncomputable def View.logpdf (v : View V) (rowid : ℤ) (query evidence : List (ℕ × V)) : ℝ :=
  if 0 ≤ rowid ∧ rowid < (v.Zr.length : ℤ) then
    v.logpdf_observed dimLogpdf rowid.toNat query evidence
  else v.logpdf_hypothetical dimLogpdf query evidence

/-- Marginalization formula stated by the spec for hypothetical `logpdf`:
for every in-use cluster plus one singleton candidate, the sum of the
per-query-column predictive log-densities plus the cluster log-posterior
(CRP prior log-weight plus the summed per-evidence-column predictive
log-densities, normalized by their log-sum-exp), reduced by log-sum-exp.
Stated from the spec's words, to be compared with the translated
`logpdf_hypothetical`. -/
noncomputable def View.logpdf_hypothetical_spec (v : View V)
    (query evidence : List (ℕ × V)) : ℝ :=
  let w : ℕ → ℝ := fun k => v.cluster_crp_logps.getD k 0 +
    (evidence.map (fun p => dimLogpdf (v.dim_clusters p.1) p.2 k)).sum
  let logZ := logsumexp ((List.range (v.Nk.length + 1)).map w)
  logsumexp ((List.range (v.Nk.length + 1)).map (fun k =>
    (query.map (fun p => dimLogpdf (v.dim_clusters p.1) p.2 k)).sum + (w k - logZ)))

/-- Translation of `View._simulate_observed(rowid, query, evidence, N)`
(`view.py` lines 240-251): `N` samples, each drawing every queried column
from the row's fixed cluster through the external sampler; the evidence
argument is ignored. -/
def View.simulate_observed (v : View V) (rowid : ℕ) (query : List ℕ)
    (evidence : List (ℕ × V)) (N : ℕ) (r : Rng) : List (List V) × Rng :=
  (List.range N).foldl (fun acc _ =>
    let dr := query.foldl (fun (dr : List V × Rng) col =>
      let k := (v.Zr.getD rowid none).getD 0
      let xr := dimSimulate (v.dim_clusters col) k dr.2
      (dr.1 ++ [xr.1], xr.2)) ([], acc.2)
    (acc.1 ++ [dr.1], dr.2)) ([], r)

/-- Translation of `View._simulate_hypothetical(query, evidence, N)`
(`view.py` lines 253-276) without the cluster-exposing flag: a posterior
over clusters is formed from CRP and evidence log-weights, and each sample
draws a cluster and then every queried column from it. -/
noncomputable def View.simulate_hypothetical (v : View V) (query : List ℕ)
    (evidence : List (ℕ × V)) (N : ℕ) (r : Rng) : List (List V) × Rng :=
  let logp_crp := v.cluster_crp_logps
  let logp_evidence := v.accum_logps dimLogpdf evidence logp_crp.length
  let cluster_logps := log_normalize (List.zipWith (· + ·) logp_crp logp_evidence)
  (List.range N).foldl (fun acc _ =>
    let kr := log_pflip cluster_logps acc.2
    let dr := query.foldl (fun (dr : List V × Rng) col =>
      let xr := dimSimulate (v.dim_clusters col) kr.1 dr.2
      (dr.1 ++ [xr.1], xr.2)) ([], kr.2)
    (acc.1 ++ [dr.1], dr.2)) ([], r)

/-- Translation of `View.simulate(rowid, query, evidence, N)` (`view.py`
lines 234-238), dispatching on whether the row index is hypothetical. -/
noncomputable def View.simulate (v : View V) (rowid : ℤ) (query : List ℕ)
    (evidence : List (ℕ × V)) (N : ℕ) (r : Rng) : List (List V) × Rng :=
  if 0 ≤ rowid ∧ rowid < (v.Zr.length : ℤ) then
    v.simulate_observed dimSimulate rowid.toNat query evidence N r
  else v.simulate_hypothetical dimLogpdf dimSimulate query evidence N r

/-- Translation of `View._logpdf_row(rowid, k)` (`view.py` lines 313-327):
the summed predictive log-density of the row's values under cluster `k`,
with the row's own contribution transiently excised when `k` is its
current cluster. -/
noncomputable def View.logpdf_row (v : View V) (rowid k : ℕ) : ℝ :=
  (v.dims.map (fun d =>
    let x := d.data rowid
    if v.Zr.getD rowid none = some k then dimLogpdf ((d.unincorporate x k).clusters) x k
    else dimLogpdf d.clusters x k)).sum

/-- Candidate data log-likelihoods assembled by `_transition_row`
(`view.py` lines 286-295): one entry per existing cluster, extended by
`m-1` fresh singleton proposals when the row's current cluster is a
singleton and by `m` otherwise. -/
noncomputable def View.logp_data (v : View V) (rowid m : ℕ) : List ℝ :=
  let existing := (List.range v.Nk.length).map (fun k => v.logpdf_row dimLogpdf rowid k)
  let m_aux := if v.Nk.getD ((v.Zr.getD rowid none).getD 0) 0 = 1 then m - 1 else m
  existing ++ (List.range m_aux).map (fun _ => v.logpdf_row dimLogpdf rowid v.Nk.length)

end Queries

/-- One mutation step of a `View`, each constructor one public operation
of the source applied under its documented contract: incorporating an
unassigned row at a label at most the cluster count, unincorporating an
assigned row, one Gibbs row transition of an assigned row with the drawn
index ranging over the candidate slots, a concentration transition, column
attach/detach, and row reindexing. -/
inductive Step : View V → View V → Prop where
  | incorporate (v : View V) (rowid k : ℕ) (hrow : v.Unassigned rowid)
      (hk : k ≤ v.Nk.length) : Step v (v.incorporate_row rowid k)
  | incorporateDefault (v : View V) (rowid : ℕ) (hrow : v.Unassigned rowid) :
      Step v (v.incorporate_row_py rowid none).1
  | unincorporate (v : View V) (rowid k : ℕ) (h : v.Zr.getD rowid none = some k) :
      Step v (v.unincorporate_row rowid)
  | transitionRow (v : View V) (rowid k0 zb : ℕ) (h : v.Zr.getD rowid none = some k0)
      (hzb : zb < v.numCandidates k0) : Step v (v.transition_row_update rowid zb)
  | transitionAlpha (v : View V) (r : Rng) : Step v (v.transition_alpha r).1
  | incorporateDim (v : View V) (d : Dim V) : Step v (v.incorporate_dim d)
  | unincorporateDim (v : View V) (c : ℕ) : Step v (v.unincorporate_dim c)
  | reindexRows (v : View V) : Step v v.reindex_rows

/-- States of a `View` reachable from construction by the mutation steps. -/
inductive Reachable : View V → Prop where
  | init (data : List (ℕ → V)) (nrows : ℕ) (alphaOpt : Option ℝ) (Zr0 : List ℕ)
      (r : Rng) (hZ : Zr0.length = nrows) :
      Reachable (View.init data nrows alphaOpt Zr0 r)
  | step {v v' : View V} : Reachable v → Step v v' → Reachable v'

/-- Fixed random stream used to instantiate witnesses. -/
def rng0 : Rng := ⟨fun _ => 0, 0⟩

/-- Concrete one-row view for the witnesses. -/
def vOneRow : View ℕ :=
  { Zr := [some 0], Nk := [1], dims := [], alpha := 1, alpha_grid := [] }

/-- Concrete view with a vacant slot at row 0. -/
def vVacant : View ℕ :=
  { Zr := [none, some 0], Nk := [1], dims := [], alpha := 1, alpha_grid := [] }

/-- Trivial column-model predictive used to instantiate witnesses. -/
def lp0 : List (Multiset ℕ) → ℕ → ℕ → ℝ := fun _ _ _ => 0

/-- Trivial column-model sampler used to instantiate witnesses. -/
def sim0 : List (Multiset ℕ) → ℕ → Rng → ℕ × Rng := fun _ _ r => (0, r)

/-- Concrete view with a singleton cluster 0 and a two-member cluster 1. -/
def vSingleton : View ℕ :=
  { Zr := [some 0, some 1, some 1], Nk := [1, 2], dims := [], alpha := 1, alpha_grid := [] }

/-- Six-row view with clusters `[0, 0, 1, 1, 1, 2]`, the state of the
claim's relabeling example. -/
def vRelabel : View ℕ :=
  { Zr := [some 0, some 0, some 1, some 1, some 1, some 2], Nk := [2, 3, 1],
    dims := [], alpha := 1, alpha_grid := [] }

/-! ### List bookkeeping lemmas -/

theorem getD_set_ite {α : Type} (l : List α) (i j : ℕ) (a d : α) :
    (l.set i a).getD j d = if i = j ∧ i < l.length then a else l.getD j d := by
  rw [List.getD_eq_getElem?_getD, List.getD_eq_getElem?_getD, List.getElem?_set]
  by_cases h1 : i = j
  · subst h1
    by_cases h2 : i < l.length
    · simp [h2]
    · have hn : l[i]? = none := by rw [List.getElem?_eq_none_iff]; omega
      simp [h2, hn]
  · simp [h1]

theorem getD_append_zero_right (l : List ℤ) (j : ℕ) :
    (l ++ [(0 : ℤ)]).getD j 0 = l.getD j 0 := by
  rw [List.getD_eq_getElem?_getD, List.getD_eq_getElem?_getD, List.getElem?_append]
  split_ifs with h
  · rfl
  · have hn : l[j]? = none := by rw [List.getElem?_eq_none_iff]; omega
    rw [hn]
    rcases hj : j - l.length with _ | m
    · simp
    · simp [List.getElem?_cons_succ]

theorem getD_eraseIdx_ite {α : Type} (l : List α) (k j : ℕ) (d : α) :
    (l.eraseIdx k).getD j d = if j < k then l.getD j d else l.getD (j + 1) d := by
  rw [List.getD_eq_getElem?_getD, List.getElem?_eraseIdx]
  split_ifs with h <;> rw [List.getD_eq_getElem?_getD]

theorem count_set_add {α : Type} [BEq α] [LawfulBEq α] (a c : α) :
    ∀ (l : List α) (i : ℕ) (b : α), l[i]? = some b →
      (l.set i a).count c + (if b == c then 1 else 0) =
        l.count c + (if a == c then 1 else 0)
  | [], i, b, h => by simp at h
  | x :: l, 0, b, h => by
    simp only [List.getElem?_cons_zero, Option.some.injEq] at h
    subst h
    simp only [List.set_cons_zero, List.count_cons]
    omega
  | x :: l, i + 1, b, h => by
    simp only [List.getElem?_cons_succ] at h
    have ih := count_set_add a c l i b h
    simp only [List.set_cons_succ, List.count_cons]
    omega

theorem count_map_shiftDown_lt (k j : ℕ) (hjk : j < k) :
    ∀ l : List (Option ℕ),
      (l.map (shiftDown k)).count (some j) = l.count (some j)
  | [] => by simp
  | z :: l => by
    have ih := count_map_shiftDown_lt k j hjk l
    rcases z with _ | i
    · simpa [shiftDown] using ih
    · rw [List.map_cons, List.count_cons, List.count_cons, ih]
      simp only [shiftDown, Option.map_some', beq_iff_eq, Option.some.injEq]
      split_ifs <;> omega

theorem count_map_shiftDown_eq (k : ℕ) :
    ∀ l : List (Option ℕ),
      (l.map (shiftDown k)).count (some k) = l.count (some k) + l.count (some (k + 1))
  | [] => by simp
  | z :: l => by
    have ih := count_map_shiftDown_eq k l
    rcases z with _ | i
    · simpa [shiftDown] using ih
    · rw [List.map_cons, List.count_cons, List.count_cons, List.count_cons, ih]
      simp only [shiftDown, Option.map_some', beq_iff_eq, Option.some.injEq]
      split_ifs <;> omega

theorem count_map_shiftDown_gt (k j : ℕ) (hjk : k < j) :
    ∀ l : List (Option ℕ),
      (l.map (shiftDown k)).count (some j) = l.count (some (j + 1))
  | [] => by simp
  | z :: l => by
    have ih := count_map_shiftDown_gt k j hjk l
    rcases z with _ | i
    · simpa [shiftDown] using ih
    · rw [List.map_cons, List.count_cons, List.count_cons, ih]
      simp only [shiftDown, Option.map_some', beq_iff_eq, Option.some.injEq]
      split_ifs <;> omega

theorem sum_map_range_getD : ∀ l : List ℤ,
    ((List.range l.length).map (fun k => l.getD k 0)).sum = l.sum
  | [] => by simp
  | x :: l => by
    have ih := sum_map_range_getD l
    rw [List.length_cons, List.range_succ_eq_map, List.map_cons, List.map_map,
      List.sum_cons, List.getD_cons_zero]
    have h2 : ((fun k => (x :: l).getD k 0) ∘ Nat.succ) = fun k => l.getD k 0 := by
      funext m
      simp [Function.comp, List.getD_cons_succ]
    rw [h2, ih, List.sum_cons]

theorem sum_range_indicator (j : ℕ) : ∀ n : ℕ,
    ((List.range n).map (fun k => if j = k then (1 : ℤ) else 0)).sum =
      if j < n then 1 else 0
  | 0 => by simp
  | n + 1 => by
    have ih := sum_range_indicator j n
    rw [List.range_succ, List.map_append, List.sum_append, ih]
    simp only [List.map_cons, List.map_nil, List.sum_cons, List.sum_nil]
    split_ifs <;> omega

theorem sum_counts (n : ℕ) : ∀ l : List (Option ℕ), (∀ j, some j ∈ l → j < n) →
    ((List.range n).map (fun k => (l.count (some k) : ℤ))).sum =
      (l.countP (fun z => z.isSome) : ℤ)
  | [], _ => by simp
  | z :: l, h => by
    have ih := sum_counts n l (fun j hj => h j (List.mem_cons_of_mem _ hj))
    rcases z with _ | i
    · have e : ((List.range n).map fun k => (((none : Option ℕ) :: l).count (some k) : ℤ)) =
          (List.range n).map fun k => (l.count (some k) : ℤ) := by
        apply List.map_congr_left
        intro a _
        simp [List.count_cons]
      rw [e, ih]
      simp [List.countP_cons]
    · have hin : i < n := h i (List.mem_cons_self _ _)
      have e : ((List.range n).map fun k => ((some i :: l).count (some k) : ℤ)) =
          (List.range n).map fun k =>
            ((l.count (some k) : ℤ) + if i = k then (1 : ℤ) else 0) := by
        apply List.map_congr_left
        intro a _
        simp only [List.count_cons, beq_iff_eq, Option.some.injEq]
        split_ifs <;> push_cast <;> omega
      rw [e, List.sum_map_add, ih, sum_range_indicator i n, if_pos hin]
      simp only [List.countP_cons, Option.isSome_some, if_pos rfl]
      push_cast
      ring

theorem set_getD_self {α : Type} (l : List α) (i : ℕ) (d : α) (h : i < l.length) :
    l.set i (l.getD i d) = l := by
  apply List.ext_getElem?
  intro n
  rw [List.getElem?_set]
  by_cases h1 : i = n
  · subst h1
    rw [if_pos rfl, if_pos h, List.getD_eq_getElem l d h, List.getElem?_eq_getElem h]
  · rw [if_neg h1]

theorem eraseIdx_set_same {α : Type} (l : List α) (i : ℕ) (a : α) :
    (l.set i a).eraseIdx i = l.eraseIdx i := by
  apply List.ext_getElem?
  intro n
  rw [List.getElem?_eraseIdx, List.getElem?_eraseIdx]
  split_ifs with h
  · rw [List.getElem?_set_ne (by omega)]
  · rw [List.getElem?_set_ne (by omega)]

theorem eraseIdx_concat {α : Type} (l : List α) (a : α) :
    (l ++ [a]).eraseIdx l.length = l := by
  rw [List.eraseIdx_append_of_length_le (le_refl _)]
  simp

theorem getD_map_shiftDown (l : List (Option ℕ)) (k i : ℕ) :
    (l.map (shiftDown k)).getD i none = shiftDown k (l.getD i none) := by
  rw [List.getD_eq_getElem?_getD, List.getD_eq_getElem?_getD, List.getElem?_map]
  cases h : l[i]? <;> simp [shiftDown]

theorem getElem?_of_getD_eq_some (l : List (Option ℕ)) (i k : ℕ)
    (h : l.getD i none = some k) : l[i]? = some (some k) := by
  rw [List.getD_eq_getElem?_getD] at h
  rcases hh : l[i]? with _ | z
  · rw [hh] at h
    simp at h
  · rw [hh] at h
    simp only [Option.getD_some] at h
    rw [h]

theorem lt_length_of_getD_eq_some (l : List (Option ℕ)) (i k : ℕ)
    (h : l.getD i none = some k) : i < l.length := by
  by_contra hge
  rw [List.getD_eq_default l none (by omega)] at h
  simp at h

theorem mem_of_getElem?_eq_some {α : Type} {l : List α} {i : ℕ} {a : α}
    (h : l[i]? = some a) : a ∈ l := by
  have hlt : i < l.length := by
    by_contra hge
    rw [List.getElem?_eq_none_iff.2 (by omega)] at h
    simp at h
  rw [List.getElem?_eq_getElem hlt] at h
  simp only [Option.some.injEq] at h
  rw [← h]
  exact List.getElem_mem hlt

theorem labelBound_lt (l : List ℕ) : ∀ x ∈ l, x < labelBound l := by
  induction l with
  | nil => simp
  | cons a l ih =>
    intro x hx
    rcases List.mem_cons.1 hx with rfl | hx
    · simp only [labelBound, List.foldr_cons]
      omega
    · have := ih x hx
      simp only [labelBound, List.foldr_cons] at *
      omega

/-! ### Ledger well-formedness preservation -/

theorem incorporate_row_Zr_count (v : View V) (rowid k : ℕ) (hrow : v.Unassigned rowid)
    (j : ℕ) :
    (v.incorporate_row rowid k).Zr.count (some j) =
      v.Zr.count (some j) + (if k = j then 1 else 0) := by
  rcases hrow with ⟨hlt, hvac⟩ | hfresh
  · have hne : rowid ≠ v.Zr.length := by omega
    have hget : v.Zr[rowid]? = some none := by
      rw [List.getD_eq_getElem _ _ hlt] at hvac
      rw [List.getElem?_eq_getElem hlt, hvac]
    have hc := count_set_add (some k) (some j) v.Zr rowid none hget
    simp only [View.incorporate_row, if_neg hne]
    simp only [beq_iff_eq, Option.some.injEq] at hc
    rw [if_neg (fun hh => Option.noConfusion hh)] at hc
    omega
  · have hget : (v.Zr ++ [some 0])[rowid]? = some (some 0) := by
      rw [hfresh]
      exact List.getElem?_concat_length v.Zr (some 0)
    have hc := count_set_add (some k) (some j) (v.Zr ++ [some 0]) rowid (some 0) hget
    simp only [View.incorporate_row, if_pos hfresh]
    rw [List.count_append, List.count_singleton] at hc
    simp only [beq_iff_eq, Option.some.injEq] at hc ⊢
    split_ifs at hc ⊢ <;> omega

theorem incorporate_row_Nk_getD (v : View V) (rowid k : ℕ) (hk : k ≤ v.Nk.length)
    (j : ℕ) :
    (v.incorporate_row rowid k).Nk.getD j 0 =
      v.Nk.getD j 0 + (if k = j then 1 else 0) := by
  have hNk1 : (if k = v.Nk.length then v.Nk ++ [(0 : ℤ)] else v.Nk).getD j 0 =
      v.Nk.getD j 0 := by
    split_ifs with h
    · exact getD_append_zero_right v.Nk j
    · rfl
  have hNk1k : (if k = v.Nk.length then v.Nk ++ [(0 : ℤ)] else v.Nk).getD k 0 =
      v.Nk.getD k 0 := by
    split_ifs with h
    · exact getD_append_zero_right v.Nk k
    · rfl
  have hklen : k < (if k = v.Nk.length then v.Nk ++ [(0 : ℤ)] else v.Nk).length := by
    split_ifs with h
    · simp
      omega
    · omega
  simp only [View.incorporate_row]
  rw [getD_set_ite, hNk1, hNk1k]
  by_cases hkj : k = j
  · rw [if_pos ⟨hkj, hklen⟩, if_pos hkj, hkj]
  · rw [if_neg (fun hh => hkj hh.1), if_neg hkj, add_zero]

theorem incorporate_row_Zr_length (v : View V) (rowid k : ℕ) :
    (v.incorporate_row rowid k).Zr.length =
      if rowid = v.Zr.length then v.Zr.length + 1 else v.Zr.length := by
  simp only [View.incorporate_row, List.length_set]
  split_ifs <;> simp

theorem incorporate_row_Nk_length (v : View V) (rowid k : ℕ) :
    (v.incorporate_row rowid k).Nk.length =
      if k = v.Nk.length then v.Nk.length + 1 else v.Nk.length := by
  simp only [View.incorporate_row, List.length_set]
  split_ifs <;> simp

theorem WF.incorporate_row {v : View V} (hwf : v.WF) {rowid k : ℕ}
    (hrow : v.Unassigned rowid) (hk : k ≤ v.Nk.length) :
    (v.incorporate_row rowid k).WF := by
  intro j
  rw [incorporate_row_Nk_getD v rowid k hk j, incorporate_row_Zr_count v rowid k hrow j,
    hwf j]
  push_cast
  split_ifs <;> ring

theorem unincorporate_row_Zr_length {v : View V} {rowid k : ℕ}
    (h : v.Zr.getD rowid none = some k) :
    (v.unincorporate_row rowid).Zr.length = v.Zr.length := by
  simp only [View.unincorporate_row, h]
  split_ifs <;> simp

theorem unincorporate_row_Zr_getD_self {v : View V} {rowid k : ℕ}
    (h : v.Zr.getD rowid none = some k) :
    (v.unincorporate_row rowid).Zr.getD rowid none = none := by
  have hlt := lt_length_of_getD_eq_some v.Zr rowid k h
  simp only [View.unincorporate_row, h]
  split_ifs with hg
  · rw [getD_set_ite]
    simp [hlt]
  · rw [getD_set_ite]
    simp [hlt]

theorem unincorporate_guard_iff {v : View V} {rowid k : ℕ} (hwf : v.WF)
    (h : v.Zr.getD rowid none = some k) :
    ((v.Nk.set k (v.Nk.getD k 0 - 1)).getD k 0 = 0 ↔ v.Zr.count (some k) = 1) := by
  have hmem : some k ∈ v.Zr := mem_of_getElem?_eq_some (getElem?_of_getD_eq_some _ _ _ h)
  have hpos : 0 < v.Zr.count (some k) := List.count_pos_iff.2 hmem
  have hklen : k < v.Nk.length := by
    by_contra hge
    have h0 := hwf k
    rw [List.getD_eq_default _ _ (by omega)] at h0
    omega
  rw [getD_set_ite, if_pos ⟨rfl, hklen⟩, hwf k]
  constructor <;> intro hh <;> omega

theorem WF.unincorporate_row {v : View V} (hwf : v.WF) {rowid k : ℕ}
    (h : v.Zr.getD rowid none = some k) :
    (v.unincorporate_row rowid).WF := by
  intro j
  have hlt := lt_length_of_getD_eq_some v.Zr rowid k h
  have hget : v.Zr[rowid]? = some (some k) := getElem?_of_getD_eq_some _ _ _ h
  have hmem : some k ∈ v.Zr := mem_of_getElem?_eq_some hget
  have hpos : 0 < v.Zr.count (some k) := List.count_pos_iff.2 hmem
  have hklen : k < v.Nk.length := by
    by_contra hge
    have h0 := hwf k
    rw [List.getD_eq_default _ _ (by omega)] at h0
    omega
  simp only [View.unincorporate_row, h]
  split_ifs with hg
  · dsimp only
    have hc1 : v.Zr.count (some k) = 1 := (unincorporate_guard_iff hwf h).1 hg
    rw [eraseIdx_set_same, getD_eraseIdx_ite]
    have hmapget : (v.Zr.map (shiftDown k))[rowid]? = some (some k) := by
      rw [List.getElem?_map, hget]
      simp [shiftDown]
    have hcs := count_set_add (none : Option ℕ) (some j) _ rowid (some k) hmapget
    rcases Nat.lt_trichotomy j k with hjk | rfl | hjk
    · rw [if_pos hjk, hwf j]
      rw [count_map_shiftDown_lt k j hjk] at hcs
      simp only [beq_iff_eq, Option.some.injEq] at hcs
      rw [if_neg (by omega)] at hcs
      simp at hcs
      omega
    · rw [if_neg (by omega), hwf (j + 1)]
      rw [count_map_shiftDown_eq j] at hcs
      simp only [beq_iff_eq, Option.some.injEq, if_pos rfl] at hcs
      simp at hcs
      omega
    · rw [if_neg (by omega), hwf (j + 1)]
      rw [count_map_shiftDown_gt k j hjk] at hcs
      simp only [beq_iff_eq, Option.some.injEq] at hcs
      rw [if_neg (by omega)] at hcs
      simp at hcs
      omega
  · dsimp only
    have hcs := count_set_add (none : Option ℕ) (some j) v.Zr rowid (some k) hget
    rw [getD_set_ite]
    by_cases hkj : k = j
    · subst hkj
      rw [if_pos ⟨rfl, hklen⟩, hwf k]
      simp at hcs
      omega
    · rw [if_neg (fun hh => hkj hh.1), hwf j]
      simp only [beq_iff_eq, Option.some.injEq] at hcs
      rw [if_neg hkj] at hcs
      simp at hcs
      omega

theorem unincorporate_row_Nk_length {v : View V} (hwf : v.WF) {rowid k : ℕ}
    (h : v.Zr.getD rowid none = some k) :
    (v.unincorporate_row rowid).Nk.length =
      if v.Zr.count (some k) = 1 then v.Nk.length - 1 else v.Nk.length := by
  have hmem : some k ∈ v.Zr := mem_of_getElem?_eq_some (getElem?_of_getD_eq_some _ _ _ h)
  have hpos : 0 < v.Zr.count (some k) := List.count_pos_iff.2 hmem
  have hklen : k < v.Nk.length := by
    by_contra hge
    have h0 := hwf k
    rw [List.getD_eq_default _ _ (by omega)] at h0
    omega
  simp only [View.unincorporate_row, h]
  split_ifs with hg hc hc
  · rw [eraseIdx_set_same, List.length_eraseIdx, if_pos hklen]
  · exact absurd ((unincorporate_guard_iff hwf h).1 hg) hc
  · exact absurd ((unincorporate_guard_iff hwf h).2 hc) hg
  · simp [List.length_set]

theorem WF.transition_row_update {v : View V} (hwf : v.WF) {rowid k0 zb : ℕ}
    (h : v.Zr.getD rowid none = some k0) (hzb : zb < v.numCandidates k0) :
    (v.transition_row_update rowid zb).WF := by
  simp only [View.transition_row_update, h]
  split_ifs with hz
  · exact hwf
  · have hwf1 := WF.unincorporate_row hwf h
    have hcnt := hwf k0
    apply WF.incorporate_row hwf1
    · left
      refine ⟨?_, unincorporate_row_Zr_getD_self h⟩
      rw [unincorporate_row_Zr_length h]
      exact lt_length_of_getD_eq_some v.Zr rowid k0 h
    · have hmem : some k0 ∈ v.Zr :=
        mem_of_getElem?_eq_some (getElem?_of_getD_eq_some _ _ _ h)
      have hpos : 0 < v.Zr.count (some k0) := List.count_pos_iff.2 hmem
      have hklen : k0 < v.Nk.length := by
        by_contra hge
        rw [List.getD_eq_default _ _ (by omega)] at hcnt
        omega
      simp only [View.numCandidates, hcnt] at hzb
      rw [unincorporate_row_Nk_length hwf h]
      split_ifs at hzb ⊢ <;> omega

theorem WF.reindex_rows {v : View V} (hwf : v.WF) : v.reindex_rows.WF := by
  intro j
  simp only [View.reindex_rows]
  rw [List.count_filter (by simp)]
  exact hwf j

theorem incorporate_row_py_none_fst (v : View V) (rowid : ℕ) :
    (v.incorporate_row_py rowid none).1 = v.incorporate_row rowid 0 := rfl

theorem incorporate_row_py_none_snd (v : View V) (rowid : ℕ) :
    (v.incorporate_row_py rowid none).2 = [] := rfl

theorem count_map_some (l : List ℕ) (j : ℕ) :
    (l.map some).count (some j) = l.count j := by
  rw [List.count_eq_countP, List.count_eq_countP, List.countP_map]
  apply List.countP_congr
  intro a _
  simp [Function.comp]

theorem WF.init (data : List (ℕ → V)) (nrows : ℕ) (alphaOpt : Option ℝ)
    (Zr0 : List ℕ) (r : Rng) : (View.init data nrows alphaOpt Zr0 r).WF := by
  intro j
  show (bincount Zr0).getD j 0 = ((Zr0.map some).count (some j) : ℤ)
  rw [count_map_some Zr0 j]
  by_cases hj : j < labelBound Zr0
  · rw [bincount, List.getD_eq_getElem _ _ (by simpa using hj)]
    rw [List.getElem_map]
    rw [List.getElem_range]
  · rw [bincount, List.getD_eq_default _ _ (by simpa using hj)]
    have h0 : Zr0.count j = 0 := by
      rw [List.count_eq_zero]
      intro hmem
      exact hj (labelBound_lt Zr0 j hmem)
    rw [h0]
    rfl

theorem reachable_wf {v : View V} (h : Reachable v) : v.WF := by
  induction h with
  | init data nrows alphaOpt Zr0 r hZ => exact WF.init data nrows alphaOpt Zr0 r
  | step hr hs ih =>
    cases hs with
    | incorporate rowid k hrow hk => exact WF.incorporate_row ih hrow hk
    | incorporateDefault rowid hrow =>
      rw [incorporate_row_py_none_fst]
      exact WF.incorporate_row ih hrow (Nat.zero_le _)
    | unincorporate rowid k hZr => exact WF.unincorporate_row ih hZr
    | transitionRow rowid k0 zb hZr hzb => exact WF.transition_row_update ih hZr hzb
    | transitionAlpha r => exact ih
    | incorporateDim d => exact ih
    | unincorporateDim c => exact ih
    | reindexRows => exact WF.reindex_rows ih

theorem WF.sum_eq_assigned {v : View V} (hwf : v.WF) :
    v.Nk.sum = (v.assignedCount : ℤ) := by
  have hbound : ∀ j : ℕ, some j ∈ v.Zr → j < v.Nk.length := by
    intro j hj
    by_contra hge
    have h0 := hwf j
    rw [List.getD_eq_default _ _ (by omega)] at h0
    have := List.count_pos_iff.2 hj
    omega
  have h1 : v.Nk.sum = ((List.range v.Nk.length).map (fun k => v.Nk.getD k 0)).sum :=
    (sum_map_range_getD v.Nk).symm
  rw [h1, List.map_congr_left (fun a _ => hwf a), sum_counts v.Nk.length v.Zr hbound]
  rfl

theorem WF.inuse_pos {v : View V} (hwf : v.WF) :
    ∀ k : ℕ, some k ∈ v.Zr → k < v.Nk.length ∧ 0 < v.Nk.getD k 0 := by
  intro k hk
  have hpos := List.count_pos_iff.2 hk
  have h0 := hwf k
  have hlen : k < v.Nk.length := by
    by_contra hge
    rw [List.getD_eq_default _ _ (by omega)] at h0
    omega
  exact ⟨hlen, by omega⟩

theorem getElem?_of_getD_eq_none (l : List (Option ℕ)) (i : ℕ) (hi : i < l.length)
    (h : l.getD i none = none) : l[i]? = some none := by
  rw [List.getElem?_eq_getElem hi]
  rw [List.getD_eq_getElem _ _ hi] at h
  rw [h]

theorem assignedCount_lt_length {v : View V} (hvac : (none : Option ℕ) ∈ v.Zr) :
    v.assignedCount < v.Zr.length := by
  unfold View.assignedCount
  rw [List.length_eq_countP_add_countP (fun z => z.isSome)]
  have hp : 0 < v.Zr.countP (fun z => decide ¬ (z.isSome = true)) := by
    rw [List.countP_pos]
    exact ⟨none, hvac, by simp⟩
  omega

theorem unincorporate_row_vacant_persists {v : View V} {rowid k i : ℕ}
    (h : v.Zr.getD rowid none = some k) (hvac : v.Zr.getD i none = none) :
    (v.unincorporate_row rowid).Zr.getD i none = none := by
  simp only [View.unincorporate_row, h]
  split_ifs with hg
  · dsimp only
    rw [getD_set_ite]
    split_ifs with hcond
    · rfl
    · rw [getD_map_shiftDown, hvac]
      rfl
  · dsimp only
    rw [getD_set_ite]
    split_ifs with hcond
    · rfl
    · exact hvac

theorem transition_row_update_Zr_length {v : View V} {rowid k0 : ℕ} (zb : ℕ)
    (h : v.Zr.getD rowid none = some k0) :
    (v.transition_row_update rowid zb).Zr.length = v.Zr.length := by
  simp only [View.transition_row_update, h]
  split_ifs with hz
  · rfl
  · have hlen := unincorporate_row_Zr_length h
    have hlt := lt_length_of_getD_eq_some v.Zr rowid k0 h
    rw [incorporate_row_Zr_length, hlen, if_neg (by omega)]

theorem transition_row_update_vacant_persists {v : View V} {rowid k0 i : ℕ} (zb : ℕ)
    (h : v.Zr.getD rowid none = some k0) (hvac : v.Zr.getD i none = none) :
    (v.transition_row_update rowid zb).Zr.getD i none = none := by
  have hir : rowid ≠ i := by
    intro hh
    rw [hh, hvac] at h
    exact Option.noConfusion h
  simp only [View.transition_row_update, h]
  split_ifs with hz
  · exact hvac
  · have hu := unincorporate_row_vacant_persists h hvac
    have hulen := unincorporate_row_Zr_length h
    have hlt := lt_length_of_getD_eq_some v.Zr rowid k0 h
    simp only [View.incorporate_row]
    rw [getD_set_ite, if_neg (fun hh => hir hh.1), if_neg (by omega)]
    exact hu

/-! ### Claim theorems -/

/-- C1: for every `View` state reachable by construction, row and column
incorporate/unincorporate, row and alpha transitions and row reindexing,
the sum of the cluster sizes `Nk` equals the number of assigned
(non-vacant) entries of `Zr`, and every label in use has a positive entry
of `Nk`. -/
theorem c1_partition_invariant {v : View V} (h : Reachable v) :
    v.Nk.sum = (v.assignedCount : ℤ) ∧
      ∀ k : ℕ, some k ∈ v.Zr → k < v.Nk.length ∧ 0 < v.Nk.getD k 0 :=
  ⟨WF.sum_eq_assigned (reachable_wf h), WF.inuse_pos (reachable_wf h)⟩

/-- Closed instance of the partition invariant at a freshly constructed
view over three rows partitioned as `[0, 0, 1]`. -/
theorem c1_partition_invariant_witness :
    (View.init ([] : List (ℕ → ℕ)) 3 (some 1) [0, 0, 1] rng0).Nk.sum =
        ((View.init ([] : List (ℕ → ℕ)) 3 (some 1) [0, 0, 1] rng0).assignedCount : ℤ) ∧
      ∀ k : ℕ, some k ∈ (View.init ([] : List (ℕ → ℕ)) 3 (some 1) [0, 0, 1] rng0).Zr →
        k < (View.init ([] : List (ℕ → ℕ)) 3 (some 1) [0, 0, 1] rng0).Nk.length ∧
          0 < (View.init ([] : List (ℕ → ℕ)) 3 (some 1) [0, 0, 1] rng0).Nk.getD k 0 :=
  c1_partition_invariant (Reachable.init [] 3 (some 1) [0, 0, 1] rng0 (by decide))

/-- C2: when the cluster label is omitted, `incorporate_row` rebinds the
label to `0` before computing the list of rows to pass through the Gibbs
kernel, so the kernel receives no rows at all and the new row's assignment
stays at the default label `0` for every state and random source, rather
than being resampled from the Gibbs conditional. -/
theorem c2_default_label_skips_gibbs (v : View V) (rowid : ℕ)
    (h : rowid ≤ v.Zr.length) :
    (v.incorporate_row_py rowid none).2 = [] ∧
      (v.incorporate_row_py rowid none).1.Zr.getD rowid none = some 0 := by
  refine ⟨rfl, ?_⟩
  rw [incorporate_row_py_none_fst]
  simp only [View.incorporate_row]
  rcases Nat.lt_or_ge rowid v.Zr.length with hlt | hge
  · rw [if_neg (by omega), getD_set_ite, if_pos ⟨rfl, hlt⟩]
  · have heq : rowid = v.Zr.length := by omega
    rw [if_pos heq, getD_set_ite, if_pos ⟨rfl, by simp; omega⟩]

/-- Closed instance: appending row 1 with the label omitted passes no rows
to the Gibbs kernel and leaves the row at label `0`. -/
theorem c2_default_label_skips_gibbs_witness :
    (vOneRow.incorporate_row_py 1 none).2 = [] ∧
      (vOneRow.incorporate_row_py 1 none).1.Zr.getD 1 none = some 0 :=
  c2_default_label_skips_gibbs vOneRow 1 (by decide)

/-- C3: the vacancy guard of `_transition_row` compares the assignment
entry against the NaN sentinel with IEEE equality, which is false for
every entry including the sentinel itself; a vacant row is therefore not
skipped with the state unchanged, but falls through to indexing the
cluster sizes with NaN, which raises. -/
theorem c3_vacant_row_not_skipped (v : View V) (rowid zb : ℕ)
    (h : v.Zr.getD rowid none = none) :
    (∀ z : Option ℕ, nanSentinelEq z = false) ∧
      v.transition_row_py rowid zb = none := by
  refine ⟨fun z => by cases z <;> rfl, ?_⟩
  simp only [View.transition_row_py, h]
  rfl

/-- Closed instance: transitioning the vacant row 0 does not skip and
raises instead of returning the state unchanged. -/
theorem c3_vacant_row_not_skipped_witness :
    (∀ z : Option ℕ, nanSentinelEq z = false) ∧
      vVacant.transition_row_py 0 0 = none :=
  c3_vacant_row_not_skipped vVacant 0 0 (by decide)

/-- C6: with `m = 1` auxiliary slot, the assembled candidate list of data
log-likelihoods holds one entry per existing cluster and no fresh
singleton when the row's current cluster has exactly one member, and
exactly one fresh singleton entry when it has more than one member. -/
theorem c6_singleton_auxiliary_rule
    (dimLogpdf : List (Multiset V) → V → ℕ → ℝ) (v : View V) (rowid k0 : ℕ)
    (h : v.Zr.getD rowid none = some k0) :
    (v.Nk.getD k0 0 = 1 →
      v.logp_data dimLogpdf rowid 1 =
        (List.range v.Nk.length).map (fun k => v.logpdf_row dimLogpdf rowid k)) ∧
    (1 < v.Nk.getD k0 0 →
      v.logp_data dimLogpdf rowid 1 =
        (List.range v.Nk.length).map (fun k => v.logpdf_row dimLogpdf rowid k) ++
          [v.logpdf_row dimLogpdf rowid v.Nk.length]) := by
  constructor
  · intro h1
    simp only [View.logp_data, h, Option.getD_some, h1, if_pos rfl]
    simp
  · intro h1
    simp only [View.logp_data, h, Option.getD_some]
    rw [if_neg (by omega)]
    simp [List.range_succ]

/-- Closed instance of the singleton auxiliary rule at a row alone in its
cluster. -/
theorem c6_singleton_auxiliary_rule_witness :
    (vSingleton.Nk.getD 0 0 = 1 →
      vSingleton.logp_data lp0 0 1 =
        (List.range vSingleton.Nk.length).map (fun k => vSingleton.logpdf_row lp0 0 k)) ∧
    (1 < vSingleton.Nk.getD 0 0 →
      vSingleton.logp_data lp0 0 1 =
        (List.range vSingleton.Nk.length).map (fun k => vSingleton.logpdf_row lp0 0 k) ++
          [vSingleton.logpdf_row lp0 0 vSingleton.Nk.length]) :=
  c6_singleton_auxiliary_rule lp0 vSingleton 0 0 (by decide)

/-- C10: `_check_partitions` compares `sum(Nk)` with the full length of
the assignment vector, vacant slots included; so in every well-formed
state with at least one vacant slot, the state produced by a Gibbs
transition of an assigned row still satisfies the spec-level invariant
over non-vacant rows, yet fails the assertion run at the end of
`_transition_row`. -/
theorem c10_check_partitions_counts_vacant {v : View V} (hwf : v.WF)
    (hvac : (none : Option ℕ) ∈ v.Zr) (rowid k0 zb : ℕ)
    (h : v.Zr.getD rowid none = some k0) (hzb : zb < v.numCandidates k0) :
    (v.transition_row_update rowid zb).Nk.sum =
        ((v.transition_row_update rowid zb).assignedCount : ℤ) ∧
      ¬ (v.transition_row_update rowid zb).check_partitions := by
  have hwf2 := WF.transition_row_update hwf h hzb
  obtain ⟨i, hi, hgi⟩ := List.mem_iff_getElem.1 hvac
  have hvacD : v.Zr.getD i none = none := by
    rw [List.getD_eq_getElem _ _ hi, hgi]
  have hvac2 : (none : Option ℕ) ∈ (v.transition_row_update rowid zb).Zr := by
    have hlen2 := transition_row_update_Zr_length zb h
    have hD := transition_row_update_vacant_persists zb h hvacD
    exact mem_of_getElem?_eq_some
      (getElem?_of_getD_eq_none _ i (by omega) hD)
  refine ⟨WF.sum_eq_assigned hwf2, ?_⟩
  intro hcp
  have hlt := assignedCount_lt_length hvac2
  have hs := WF.sum_eq_assigned hwf2
  have hcp2 := hcp.2
  omega

/-- Closed instance: in the three-row view built over partition
`[0, 0, 0]` and then vacated at row 0, a Gibbs transition of assigned row
1 yields a state satisfying the non-vacant invariant but failing
`_check_partitions`. -/
theorem c10_check_partitions_counts_vacant_witness :
    (((View.init ([] : List (ℕ → ℕ)) 3 (some 1) [0, 0, 0] rng0).unincorporate_row
          0).transition_row_update 1 0).Nk.sum =
        ((((View.init ([] : List (ℕ → ℕ)) 3 (some 1) [0, 0, 0]
            rng0).unincorporate_row 0).transition_row_update 1 0).assignedCount : ℤ) ∧
      ¬ (((View.init ([] : List (ℕ → ℕ)) 3 (some 1) [0, 0, 0]
            rng0).unincorporate_row 0).transition_row_update 1 0).check_partitions :=
  c10_check_partitions_counts_vacant
    (WF.unincorporate_row (WF.init [] 3 (some 1) [0, 0, 0] rng0)
      (show (View.init ([] : List (ℕ → ℕ)) 3 (some 1) [0, 0, 0] rng0).Zr.getD 0 none =
          some 0 by decide))
    (by decide) 1 0 0 (by decide) (by decide)

/-- Assignment slot written by `incorporate_row`: the incorporated row
carries the requested label. -/
theorem incorporate_row_Zr_getD_self (v : View V) (rowid k : ℕ)
    (h : rowid ≤ v.Zr.length) :
    (v.incorporate_row rowid k).Zr.getD rowid none = some k := by
  simp only [View.incorporate_row]
  rcases Nat.lt_or_ge rowid v.Zr.length with hlt | hge
  · rw [if_neg (by omega), getD_set_ite, if_pos ⟨rfl, hlt⟩]
  · have heq : rowid = v.Zr.length := by omega
    rw [if_pos heq, getD_set_ite, if_pos ⟨rfl, by simp; omega⟩]

theorem getD_concat_length {α : Type} (l : List α) (a d : α) :
    (l ++ [a]).getD l.length d = a := by
  rw [List.getD_eq_getElem?_getD, List.getElem?_concat_length]
  rfl

theorem Dim.incorporate_data (d : Dim V) (x : V) (k : ℕ) :
    (d.incorporate x k).data = d.data := by
  rw [Dim.incorporate]
  split_ifs <;> rfl

/-- Round trip of a single value through an existing cluster of a column
model restores its statistics. -/
theorem dim_roundtrip_existing (d : Dim V) (x : V) (k : ℕ)
    (hk : k < d.clusters.length) :
    (d.incorporate x k).unincorporate x k = d := by
  have hne : k ≠ d.clusters.length := by omega
  simp only [Dim.incorporate, if_neg hne, Dim.unincorporate]
  have hg : (d.clusters.set k (x ::ₘ d.clusters.getD k 0)).getD k 0 =
      x ::ₘ d.clusters.getD k 0 := by
    rw [getD_set_ite, if_pos ⟨rfl, hk⟩]
  rw [hg, Multiset.erase_cons_head, List.set_set, set_getD_self _ _ _ hk]

/-- Round trip of a single value through a fresh singleton cluster of a
column model, followed by deletion of the emptied cluster, restores its
statistics. -/
theorem dim_roundtrip_fresh (d : Dim V) (x : V) (k : ℕ)
    (hk : k = d.clusters.length) :
    ((d.incorporate x k).unincorporate x k).bulk_unincorporate k = d := by
  subst hk
  simp only [Dim.incorporate, Dim.unincorporate, Dim.bulk_unincorporate,
    eq_self_iff_true, if_true]
  rw [getD_concat_length, Multiset.erase_singleton, eraseIdx_set_same, eraseIdx_concat]

/-- C4: incorporating an unassigned row at any label `k` up to the cluster
count and immediately unincorporating it restores the cluster-size vector
and every attached column model exactly, in every state whose clusters are
all non-empty and whose column models track one statistics slot per
cluster. -/
theorem c4_incorporate_unincorporate_roundtrip (v : View V) (rowid k : ℕ)
    (hdense : ∀ j, j < v.Nk.length → 0 < v.Nk.getD j 0)
    (hrow : v.Unassigned rowid) (hk : k ≤ v.Nk.length)
    (hdims : ∀ d ∈ v.dims, d.clusters.length = v.Nk.length) :
    ((v.incorporate_row rowid k).unincorporate_row rowid).Nk = v.Nk ∧
      ((v.incorporate_row rowid k).unincorporate_row rowid).dims = v.dims := by
  have hrlen : rowid ≤ v.Zr.length := by
    rcases hrow with hl | hr
    · omega
    · omega
  have hself := incorporate_row_Zr_getD_self v rowid k hrlen
  have hNkgetD := incorporate_row_Nk_getD v rowid k hk k
  rw [if_pos rfl] at hNkgetD
  have hklt : k < (v.incorporate_row rowid k).Nk.length := by
    rw [incorporate_row_Nk_length]
    split_ifs <;> omega
  simp only [View.unincorporate_row, hself]
  have hcond : k = k ∧ k < (v.incorporate_row rowid k).Nk.length := ⟨rfl, hklt⟩
  rw [getD_set_ite, if_pos hcond, hNkgetD]
  have hsimp1 : v.Nk.getD k 0 + 1 - 1 = v.Nk.getD k 0 := by ring
  rw [hsimp1]
  split_ifs with hguard
  · have hkl : k = v.Nk.length := by
      by_contra hne
      have := hdense k (by omega)
      omega
    dsimp only
    constructor
    · rw [eraseIdx_set_same]
      simp only [View.incorporate_row]
      rw [if_pos hkl, eraseIdx_set_same, hkl, eraseIdx_concat]
    · simp only [View.incorporate_row]
      rw [List.map_map, List.map_map]
      have hpt : ∀ d ∈ v.dims,
          (((fun d0 : Dim V => d0.bulk_unincorporate k) ∘
                (fun d0 : Dim V => d0.unincorporate (d0.data rowid) k)) ∘
              fun d0 : Dim V => d0.incorporate (d0.data rowid) k) d = id d := by
        intro d hd
        simp only [Function.comp, id, Dim.incorporate_data]
        exact dim_roundtrip_fresh d (d.data rowid) k (by rw [hdims d hd, hkl])
      rw [List.map_congr_left hpt, List.map_id]
  · have hklt2 : k < v.Nk.length := by
      rcases Nat.lt_or_ge k v.Nk.length with hh | hh
      · exact hh
      · exact absurd (List.getD_eq_default v.Nk 0 (by omega)) hguard
    have hkl : k ≠ v.Nk.length := by omega
    dsimp only
    constructor
    · simp only [View.incorporate_row]
      rw [if_neg hkl, List.set_set, set_getD_self _ _ _ hklt2]
    · simp only [View.incorporate_row]
      rw [List.map_map]
      have hpt : ∀ d ∈ v.dims,
          ((fun d0 : Dim V => d0.unincorporate (d0.data rowid) k) ∘
              fun d0 : Dim V => d0.incorporate (d0.data rowid) k) d = id d := by
        intro d hd
        simp only [Function.comp, id, Dim.incorporate_data]
        exact dim_roundtrip_existing d (d.data rowid) k (by rw [hdims d hd]; omega)
      rw [List.map_congr_left hpt, List.map_id]

/-- Closed instance: in a 2-row view over one column with both rows in
cluster 0, incorporating row 2 as a fresh singleton (label 1) and
immediately unincorporating it restores the cluster sizes and the column
model. -/
theorem c4_incorporate_unincorporate_roundtrip_witness :
    (((View.init [fun i => i] 2 (some 1) [0, 0] rng0).incorporate_row
          2 1).unincorporate_row 2).Nk =
        (View.init [fun i => i] 2 (some 1) [0, 0] rng0).Nk ∧
      (((View.init [fun i => i] 2 (some 1) [0, 0] rng0).incorporate_row
          2 1).unincorporate_row 2).dims =
        (View.init [fun i => i] 2 (some 1) [0, 0] rng0).dims :=
  c4_incorporate_unincorporate_roundtrip (View.init [fun i => i] 2 (some 1) [0, 0] rng0)
    2 1
    (by
      intro j hj
      have hlen : (View.init [fun i => i] 2 (some 1) [0, 0] rng0).Nk.length = 1 := by
        decide
      rw [hlen] at hj
      have hj0 : j = 0 := by omega
      subst hj0
      decide)
    (Or.inr (by decide))
    (by decide)
    (by
      intro d hd
      have hdims : (View.init [fun i => i] 2 (some 1) [0, 0] rng0).dims =
          [Dim.bulk_incorporate ⟨fun i => i, []⟩ ([0, 0].map some)] := rfl
      rw [hdims] at hd
      rcases List.mem_singleton.1 hd with rfl
      decide)

/-- C5 counterexample: in the claim's example state `[0, 0, 1, 1, 1, 2]`,
cluster 0 has two members, so it has no sole member; vacating either of
its rows decrements `Nk[0]` without emptying the cluster, no relabeling
happens, and the claimed assignment `[_, 0, 0, 0, 1]` is not produced. -/
theorem c5_relabel_counterexample :
    vRelabel.Zr.count (some 0) = 2 ∧
      (vRelabel.unincorporate_row 0).Zr =
        [none, some 0, some 1, some 1, some 1, some 2] ∧
      (vRelabel.unincorporate_row 0).Zr ≠ [none, some 0, some 0, some 0, some 1] ∧
      (vRelabel.unincorporate_row 1).Zr ≠ [some 0, none, some 0, some 0, some 1] :=
  ⟨by decide, by decide, by decide, by decide⟩

/-- C5 (amended): whenever `unincorporate_row` empties a cluster `k` (the
vacated row was its sole member), label `k` is deleted from the
cluster-size vector with the surviving sizes kept in their relative order,
every other assignment entry above `k` is decremented by exactly one while
entries at most `k` and vacant slots are unchanged, the vacated slot holds
the sentinel, and every attached column model unincorporates the row's
value and then deletes its statistics for label `k`.  The claim's concrete
instance holds on the corrected five-row partition `[0, 1, 1, 1, 2]`, in
which cluster 0 really is a singleton: vacating row 0 yields
`[_, 0, 0, 0, 1]`. -/
theorem c5_relabel_on_empty (v : View V) (rowid k : ℕ) (hwf : v.WF)
    (h : v.Zr.getD rowid none = some k) (h1 : v.Nk.getD k 0 = 1) :
    ((v.unincorporate_row rowid).Nk = v.Nk.eraseIdx k) ∧
      (∀ i, i ≠ rowid →
        (v.unincorporate_row rowid).Zr.getD i none = shiftDown k (v.Zr.getD i none)) ∧
      ((v.unincorporate_row rowid).Zr.getD rowid none = none) ∧
      ((v.unincorporate_row rowid).dims =
        v.dims.map (fun d => (d.unincorporate (d.data rowid) k).bulk_unincorporate k)) ∧
      ((View.init ([] : List (ℕ → ℕ)) 5 (some 1) [0, 1, 1, 1, 2]
          rng0).unincorporate_row 0).Zr =
        [none, some 0, some 0, some 0, some 1] := by
  have hmem : some k ∈ v.Zr := mem_of_getElem?_eq_some (getElem?_of_getD_eq_some _ _ _ h)
  have hpos : 0 < v.Zr.count (some k) := List.count_pos_iff.2 hmem
  have hklen : k < v.Nk.length := by
    by_contra hge
    have h0 := hwf k
    rw [List.getD_eq_default _ _ (by omega)] at h0
    omega
  have hguard : (v.Nk.set k (v.Nk.getD k 0 - 1)).getD k 0 = 0 := by
    rw [getD_set_ite, if_pos ⟨rfl, hklen⟩, h1]
    ring
  refine ⟨?_, ?_, unincorporate_row_Zr_getD_self h, ?_, by decide⟩
  · simp only [View.unincorporate_row, h, if_pos hguard]
    exact eraseIdx_set_same v.Nk k (v.Nk.getD k 0 - 1)
  · intro i hi
    simp only [View.unincorporate_row, h, if_pos hguard]
    rw [getD_set_ite, if_neg (fun hh => hi hh.1.symm), getD_map_shiftDown]
  · simp only [View.unincorporate_row, h, if_pos hguard]
    rw [List.map_map]
    rfl

/-- Closed instance of the amended relabeling claim on the corrected
five-row partition `[0, 1, 1, 1, 2]`, vacating singleton row 0. -/
theorem c5_relabel_on_empty_witness :
    (((View.init ([] : List (ℕ → ℕ)) 5 (some 1) [0, 1, 1, 1, 2]
          rng0).unincorporate_row 0).Nk =
        (View.init ([] : List (ℕ → ℕ)) 5 (some 1) [0, 1, 1, 1, 2]
          rng0).Nk.eraseIdx 0) ∧
      (∀ i, i ≠ 0 →
        ((View.init ([] : List (ℕ → ℕ)) 5 (some 1) [0, 1, 1, 1, 2]
            rng0).unincorporate_row 0).Zr.getD i none =
          shiftDown 0 ((View.init ([] : List (ℕ → ℕ)) 5 (some 1) [0, 1, 1, 1, 2]
            rng0).Zr.getD i none)) ∧
      (((View.init ([] : List (ℕ → ℕ)) 5 (some 1) [0, 1, 1, 1, 2]
          rng0).unincorporate_row 0).Zr.getD 0 none = none) ∧
      (((View.init ([] : List (ℕ → ℕ)) 5 (some 1) [0, 1, 1, 1, 2]
          rng0).unincorporate_row 0).dims =
        (View.init ([] : List (ℕ → ℕ)) 5 (some 1) [0, 1, 1, 1, 2]
          rng0).dims.map
            (fun d => (d.unincorporate (d.data 0) 0).bulk_unincorporate 0)) ∧
      ((View.init ([] : List (ℕ → ℕ)) 5 (some 1) [0, 1, 1, 1, 2]
          rng0).unincorporate_row 0).Zr =
        [none, some 0, some 0, some 0, some 1] :=
  c5_relabel_on_empty (View.init ([] : List (ℕ → ℕ)) 5 (some 1) [0, 1, 1, 1, 2] rng0)
    0 0 (WF.init [] 5 (some 1) [0, 1, 1, 1, 2] rng0) (by decide) (by decide)

/-! ### Query engine lemmas -/

theorem list_eq_of_getD {a b : List ℝ} (hlen : a.length = b.length)
    (h : ∀ i, i < a.length → a.getD i 0 = b.getD i 0) : a = b := by
  apply List.ext_getElem?
  intro n
  rcases Nat.lt_or_ge n a.length with hn | hn
  · rw [List.getElem?_eq_getElem hn, List.getElem?_eq_getElem (by omega)]
    have hh := h n hn
    rw [List.getD_eq_getElem _ _ hn, List.getD_eq_getElem _ _ (by omega)] at hh
    rw [hh]
  · rw [List.getElem?_eq_none_iff.2 (by omega), List.getElem?_eq_none_iff.2 (by omega)]

theorem getD_map_range (g : ℕ → ℝ) (n i : ℕ) (hi : i < n) :
    ((List.range n).map g).getD i 0 = g i := by
  rw [List.getD_eq_getElem _ _ (by simpa using hi), List.getElem_map, List.getElem_range]

theorem getD_map_real (f : ℝ → ℝ) (l : List ℝ) (i : ℕ) (hi : i < l.length) :
    (l.map f).getD i 0 = f (l.getD i 0) := by
  rw [List.getD_eq_getElem _ _ (by simpa using hi), List.getElem_map,
    List.getD_eq_getElem _ _ hi]

theorem getD_replicate_zero (n i : ℕ) : (List.replicate n (0 : ℝ)).getD i 0 = 0 := by
  rw [List.getD_eq_getElem?_getD, List.getElem?_replicate]
  split_ifs <;> rfl

theorem getD_zipWith_add (a b : List ℝ) (i : ℕ) (hi : i < a.length)
    (hlen : b.length = a.length) :
    (List.zipWith (· + ·) a b).getD i 0 = a.getD i 0 + b.getD i 0 := by
  rw [List.getD_eq_getElem _ _ (by rw [List.length_zipWith]; omega),
    List.getElem_zipWith, List.getD_eq_getElem _ _ hi,
    List.getD_eq_getElem _ _ (by omega)]

theorem cluster_data_logps_length (dimLogpdf : List (Multiset V) → V → ℕ → ℝ)
    (v : View V) (col : ℕ) (x : V) :
    (v.cluster_data_logps dimLogpdf col x).length = (v.dim_clusters col).length + 1 := by
  simp [View.cluster_data_logps]

theorem cluster_data_logps_getD (dimLogpdf : List (Multiset V) → V → ℕ → ℝ)
    (v : View V) (col : ℕ) (x : V) (i : ℕ)
    (hi : i < (v.dim_clusters col).length + 1) :
    (v.cluster_data_logps dimLogpdf col x).getD i 0 =
      dimLogpdf (v.dim_clusters col) x i := by
  rw [View.cluster_data_logps]
  exact getD_map_range _ _ _ hi

theorem accum_foldl_length (dimLogpdf : List (Multiset V) → V → ℕ → ℝ) (v : View V) :
    ∀ (ps : List (ℕ × V)) (acc : List ℝ),
      (∀ p ∈ ps, (v.cluster_data_logps dimLogpdf p.1 p.2).length = acc.length) →
      (ps.foldl (fun a p => List.zipWith (· + ·) a
          (v.cluster_data_logps dimLogpdf p.1 p.2)) acc).length = acc.length
  | [], acc, _ => rfl
  | p :: ps, acc, h => by
    rw [List.foldl_cons]
    have hlen : (List.zipWith (· + ·) acc
        (v.cluster_data_logps dimLogpdf p.1 p.2)).length = acc.length := by
      rw [List.length_zipWith, h p (List.mem_cons_self _ _)]
      simp
    have ih := accum_foldl_length dimLogpdf v ps
      (List.zipWith (· + ·) acc (v.cluster_data_logps dimLogpdf p.1 p.2))
      (fun q hq => by rw [hlen]; exact h q (List.mem_cons_of_mem _ hq))
    rw [ih, hlen]

theorem accum_foldl_getD (dimLogpdf : List (Multiset V) → V → ℕ → ℝ) (v : View V)
    (i : ℕ) :
    ∀ (ps : List (ℕ × V)) (acc : List ℝ), i < acc.length →
      (∀ p ∈ ps, (v.cluster_data_logps dimLogpdf p.1 p.2).length = acc.length) →
      (ps.foldl (fun a p => List.zipWith (· + ·) a
          (v.cluster_data_logps dimLogpdf p.1 p.2)) acc).getD i 0 =
        acc.getD i 0 + (ps.map (fun p => dimLogpdf (v.dim_clusters p.1) p.2 i)).sum
  | [], acc, _, _ => by simp
  | p :: ps, acc, hi, h => by
    rw [List.foldl_cons]
    have hlenp := h p (List.mem_cons_self _ _)
    have hlen : (List.zipWith (· + ·) acc
        (v.cluster_data_logps dimLogpdf p.1 p.2)).length = acc.length := by
      rw [List.length_zipWith, hlenp]
      simp
    have ih := accum_foldl_getD dimLogpdf v i ps
      (List.zipWith (· + ·) acc (v.cluster_data_logps dimLogpdf p.1 p.2))
      (by omega)
      (fun q hq => by rw [hlen]; exact h q (List.mem_cons_of_mem _ hq))
    have hcl := cluster_data_logps_length dimLogpdf v p.1 p.2
    have hb : i < (v.dim_clusters p.1).length + 1 := by omega
    rw [ih, getD_zipWith_add acc _ i hi hlenp,
      cluster_data_logps_getD dimLogpdf v p.1 p.2 i hb, List.map_cons, List.sum_cons]
    ring

theorem accum_logps_length (dimLogpdf : List (Multiset V) → V → ℕ → ℝ) (v : View V)
    (ps : List (ℕ × V)) (n : ℕ)
    (h : ∀ p ∈ ps, (v.dim_clusters p.1).length + 1 = n) :
    (v.accum_logps dimLogpdf ps n).length = n := by
  rw [View.accum_logps, accum_foldl_length dimLogpdf v ps _ (fun q hq => by
    rw [cluster_data_logps_length, List.length_replicate, h q hq]),
    List.length_replicate]

theorem accum_logps_getD (dimLogpdf : List (Multiset V) → V → ℕ → ℝ) (v : View V)
    (ps : List (ℕ × V)) (n i : ℕ) (hi : i < n)
    (h : ∀ p ∈ ps, (v.dim_clusters p.1).length + 1 = n) :
    (v.accum_logps dimLogpdf ps n).getD i 0 =
      (ps.map (fun p => dimLogpdf (v.dim_clusters p.1) p.2 i)).sum := by
  rw [View.accum_logps, accum_foldl_getD dimLogpdf v i ps _
      (by rw [List.length_replicate]; exact hi)
      (fun q hq => by rw [cluster_data_logps_length, List.length_replicate, h q hq]),
    getD_replicate_zero, zero_add]

theorem cluster_crp_logps_length (v : View V) :
    v.cluster_crp_logps.length = v.Nk.length + 1 := by
  rw [View.cluster_crp_logps, List.length_map, List.length_append, List.length_map]
  rfl

theorem zipWith_log_normalize_map (q w : ℕ → ℝ) (n : ℕ) (qa : List ℝ)
    (hqa : qa.length = n) (hq : ∀ i, i < n → qa.getD i 0 = q i) :
    List.zipWith (· + ·) qa (log_normalize ((List.range n).map w)) =
      (List.range n).map
        (fun k => q k + (w k - logsumexp ((List.range n).map w))) := by
  apply list_eq_of_getD
  · simp [log_normalize, hqa]
  · intro i hi
    have hin : i < n := by
      rw [List.length_zipWith, hqa] at hi
      omega
    rw [getD_zipWith_add qa _ i (by omega)
        (by rw [log_normalize, List.length_map, List.length_map, List.length_range, hqa]),
      hq i hin, log_normalize,
      getD_map_real _ _ i (by simp [hin]), getD_map_range w n i hin,
      getD_map_range _ n i hin]

/-- C7: for every hypothetical row index, `logpdf` computes the spec's
exact marginalization over the latent cluster: the log-sum-exp over every
in-use cluster plus one singleton candidate of the summed query
log-densities plus the normalized cluster log-posterior built from the CRP
log-weight and the summed evidence log-densities. -/
theorem c7_logpdf_hypothetical_marginalization
    (dimLogpdf : List (Multiset V) → V → ℕ → ℝ) (v : View V) (rowid : ℤ)
    (query evidence : List (ℕ × V))
    (hhyp : ¬ (0 ≤ rowid ∧ rowid < (v.Zr.length : ℤ)))
    (hq : ∀ p ∈ query, (v.dim_clusters p.1).length = v.Nk.length)
    (he : ∀ p ∈ evidence, (v.dim_clusters p.1).length = v.Nk.length) :
    v.logpdf dimLogpdf rowid query evidence =
      v.logpdf_hypothetical_spec dimLogpdf query evidence := by
  have hqlen : ∀ p ∈ query, (v.dim_clusters p.1).length + 1 = v.Nk.length + 1 :=
    fun p hp => by rw [hq p hp]
  have helen : ∀ p ∈ evidence, (v.dim_clusters p.1).length + 1 = v.Nk.length + 1 :=
    fun p hp => by rw [he p hp]
  have hS : List.zipWith (· + ·) v.cluster_crp_logps
        (v.accum_logps dimLogpdf evidence (v.Nk.length + 1)) =
      (List.range (v.Nk.length + 1)).map
        (fun k => v.cluster_crp_logps.getD k 0 +
          (evidence.map (fun p => dimLogpdf (v.dim_clusters p.1) p.2 k)).sum) := by
    apply list_eq_of_getD
    · rw [List.length_zipWith, cluster_crp_logps_length,
        accum_logps_length dimLogpdf v evidence _ helen, List.length_map,
        List.length_range]
      simp
    · intro i hi
      have hin : i < v.Nk.length + 1 := by
        rw [List.length_zipWith, cluster_crp_logps_length,
          accum_logps_length dimLogpdf v evidence _ helen] at hi
        omega
      rw [getD_zipWith_add _ _ i (by rw [cluster_crp_logps_length]; omega)
          (by rw [accum_logps_length dimLogpdf v evidence _ helen,
            cluster_crp_logps_length]),
        accum_logps_getD dimLogpdf v evidence _ i hin helen,
        getD_map_range _ _ _ hin]
  rw [View.logpdf, if_neg hhyp]
  simp only [View.logpdf_hypothetical, View.logpdf_hypothetical_spec]
  rw [cluster_crp_logps_length, hS]
  exact congrArg logsumexp
    (zipWith_log_normalize_map
      (fun k => (query.map (fun p => dimLogpdf (v.dim_clusters p.1) p.2 k)).sum)
      (fun k => v.cluster_crp_logps.getD k 0 +
        (evidence.map (fun p => dimLogpdf (v.dim_clusters p.1) p.2 k)).sum)
      (v.Nk.length + 1)
      (v.accum_logps dimLogpdf query (v.Nk.length + 1))
      (accum_logps_length dimLogpdf v query _ hqlen)
      (fun i hi => accum_logps_getD dimLogpdf v query _ i hi hqlen))

/-- Closed instance of the hypothetical marginalization at a two-row,
one-column view and the out-of-range row index 5. -/
theorem c7_logpdf_hypothetical_marginalization_witness :
    (View.init [fun i => i] 2 (some 1) [0, 0] rng0).logpdf lp0 5 [(0, 7)] [(0, 3)] =
      (View.init [fun i => i] 2 (some 1) [0, 0] rng0).logpdf_hypothetical_spec lp0
        [(0, 7)] [(0, 3)] :=
  c7_logpdf_hypothetical_marginalization lp0
    (View.init [fun i => i] 2 (some 1) [0, 0] rng0) 5 [(0, 7)] [(0, 3)]
    (by decide)
    (by
      intro p hp
      rcases List.mem_singleton.1 hp with rfl
      decide)
    (by
      intro p hp
      rcases List.mem_singleton.1 hp with rfl
      decide)

/-- C8: for every observed row index (within the assignment's range), the
evidence argument influences neither `logpdf` nor `simulate`: both
dispatch to the observed-row paths, which ignore it entirely. -/
theorem c8_evidence_ignored_observed
    (dimLogpdf : List (Multiset V) → V → ℕ → ℝ)
    (dimSimulate : List (Multiset V) → ℕ → Rng → V × Rng)
    (v : View V) (rowid : ℤ) (query : List (ℕ × V)) (queryCols : List ℕ)
    (e1 e2 : List (ℕ × V)) (N : ℕ) (r : Rng)
    (h0 : 0 ≤ rowid) (h1 : rowid < (v.Zr.length : ℤ)) :
    v.logpdf dimLogpdf rowid query e1 = v.logpdf dimLogpdf rowid query e2 ∧
      v.simulate dimLogpdf dimSimulate rowid queryCols e1 N r =
        v.simulate dimLogpdf dimSimulate rowid queryCols e2 N r := by
  have hc : 0 ≤ rowid ∧ rowid < (v.Zr.length : ℤ) := ⟨h0, h1⟩
  constructor
  · rw [View.logpdf, View.logpdf, if_pos hc, if_pos hc]
    rfl
  · rw [View.simulate, View.simulate, if_pos hc, if_pos hc]
    rfl

/-- Closed instance: on a one-row view, observed-row `logpdf` and
`simulate` coincide under empty and non-empty evidence. -/
theorem c8_evidence_ignored_observed_witness :
    vOneRow.logpdf lp0 0 [] [] = vOneRow.logpdf lp0 0 [] [(0, 3)] ∧
      vOneRow.simulate lp0 sim0 0 [0] [] 1 rng0 =
        vOneRow.simulate lp0 sim0 0 [0] [(0, 3)] 1 rng0 :=
  c8_evidence_ignored_observed lp0 sim0 vOneRow 0 [] [0] [] [(0, 3)] 1 rng0
    (by decide) (by decide)

/-! ### Concentration grid lemmas -/

theorem getD_mem_of_lt {l : List ℝ} {i : ℕ} (hi : i < l.length) : l.getD i 0 ∈ l := by
  rw [List.getD_eq_getElem _ _ hi]
  exact List.getElem_mem hi

theorem mkAlphaGrid_length (N : ℕ) : (mkAlphaGrid N).length = 30 := by
  rw [mkAlphaGrid, log_linspace, List.length_map, List.length_range]

theorem step_preserves_alpha_grid {v v2 : View V} (hs : Step v v2) :
    v2.alpha_grid = v.alpha_grid := by
  cases hs with
  | incorporate rowid k hrow hk => rfl
  | incorporateDefault rowid hrow => rfl
  | unincorporate rowid k h =>
    simp only [View.unincorporate_row, h]
    split_ifs <;> rfl
  | transitionRow rowid k0 zb h hzb =>
    simp only [View.transition_row_update, h]
    split_ifs with hz
    · rfl
    · have h1 : ((v.unincorporate_row rowid).incorporate_row rowid zb).alpha_grid =
          (v.unincorporate_row rowid).alpha_grid := rfl
      rw [h1]
      simp only [View.unincorporate_row, h]
      split_ifs <;> rfl
  | transitionAlpha r => rfl
  | incorporateDim d => rfl
  | unincorporateDim c => rfl
  | reindexRows => rfl

/-- C9: the concentration grid built at construction holds exactly 30
log-spaced values whose first and last elements are `1/rowcount` and
`rowcount` and which all lie in that interval; no mutation step rebuilds
the grid; a construction with unspecified concentration draws a grid
element, and `transition_alpha` evaluates the CRP conditional over the
grid and always sets the concentration to a grid element. -/
theorem c9_alpha_grid_resampling (N : ℕ) (hN : 1 ≤ N) (v : View V) (r r2 : Rng)
    (data : List (ℕ → V)) (Zr0 : List ℕ) (hgl : v.alpha_grid.length = 30) :
    (mkAlphaGrid N).length = 30 ∧
      (mkAlphaGrid N).getD 0 0 = 1 / (N : ℝ) ∧
      (mkAlphaGrid N).getD 29 0 = (N : ℝ) ∧
      (∀ x ∈ mkAlphaGrid N, 1 / (N : ℝ) ≤ x ∧ x ≤ (N : ℝ)) ∧
      (View.init data N none Zr0 r).alpha_grid = mkAlphaGrid N ∧
      (View.init data N none Zr0 r).alpha ∈ (View.init data N none Zr0 r).alpha_grid ∧
      (∀ v2 : View V, Step v v2 → v2.alpha_grid = v.alpha_grid) ∧
      (v.transition_alpha r2).1.alpha_grid = v.alpha_grid ∧
      (v.transition_alpha r2).1.alpha ∈ v.alpha_grid := by
  have hNpos : (0 : ℝ) < (N : ℝ) := by
    have : (1 : ℝ) ≤ (N : ℝ) := by exact_mod_cast hN
    linarith
  have hinv : (0 : ℝ) < 1 / (N : ℝ) := by positivity
  have hlog : Real.log (1 / (N : ℝ)) ≤ Real.log (N : ℝ) := by
    apply Real.log_le_log hinv
    have h1N : (1 : ℝ) ≤ (N : ℝ) := by exact_mod_cast hN
    rw [div_le_iff hNpos]
    nlinarith
  refine ⟨mkAlphaGrid_length N, ?_, ?_, ?_, rfl, ?_, fun v2 hs =>
    step_preserves_alpha_grid hs, rfl, ?_⟩
  · rw [mkAlphaGrid, log_linspace, getD_map_range _ _ _ (by omega)]
    push_cast
    have he : Real.log (1 / (N : ℝ)) +
        (Real.log (N : ℝ) - Real.log (1 / (N : ℝ))) * (0 : ℝ) / ((30 : ℝ) - 1) =
        Real.log (1 / (N : ℝ)) := by
      ring
    rw [he, Real.exp_log hinv]
  · rw [mkAlphaGrid, log_linspace, getD_map_range _ _ _ (by omega)]
    push_cast
    have he : Real.log (1 / (N : ℝ)) +
        (Real.log (N : ℝ) - Real.log (1 / (N : ℝ))) * (29 : ℝ) / ((30 : ℝ) - 1) =
        Real.log (N : ℝ) := by
      ring
    rw [he, Real.exp_log hNpos]
  · intro x hx
    rw [mkAlphaGrid, log_linspace] at hx
    obtain ⟨i, hi, rfl⟩ := List.mem_map.1 hx
    have hi30 : i < 30 := List.mem_range.1 hi
    have ht0 : (0 : ℝ) ≤ (i : ℝ) / (((30 : ℕ) : ℝ) - 1) := by positivity
    have ht1 : (i : ℝ) / (((30 : ℕ) : ℝ) - 1) ≤ 1 := by
      rw [div_le_one (by norm_num)]
      have : (i : ℝ) ≤ 29 := by exact_mod_cast Nat.le_of_lt_succ hi30
      norm_num
      linarith
    have hdelta : (0 : ℝ) ≤ Real.log (N : ℝ) - Real.log (1 / (N : ℝ)) := by linarith
    have hlo : Real.log (1 / (N : ℝ)) ≤ Real.log (1 / (N : ℝ)) +
        (Real.log (N : ℝ) - Real.log (1 / (N : ℝ))) * (i : ℝ) / (((30 : ℕ) : ℝ) - 1) := by
      have hm := mul_nonneg hdelta ht0
      rw [mul_div_assoc]
      linarith
    have hhi : Real.log (1 / (N : ℝ)) +
        (Real.log (N : ℝ) - Real.log (1 / (N : ℝ))) * (i : ℝ) / (((30 : ℕ) : ℝ) - 1) ≤
        Real.log (N : ℝ) := by
      have hm := mul_nonneg hdelta
        (by linarith : (0 : ℝ) ≤ 1 - (i : ℝ) / (((30 : ℕ) : ℝ) - 1))
      rw [mul_div_assoc]
      nlinarith
    constructor
    · calc 1 / (N : ℝ) = Real.exp (Real.log (1 / (N : ℝ))) := (Real.exp_log hinv).symm
        _ ≤ _ := Real.exp_le_exp.2 hlo
    · calc Real.exp (Real.log (1 / (N : ℝ)) +
            (Real.log (N : ℝ) - Real.log (1 / (N : ℝ))) * (i : ℝ) /
              (((30 : ℕ) : ℝ) - 1)) ≤
          Real.exp (Real.log (N : ℝ)) := Real.exp_le_exp.2 hhi
        _ = (N : ℝ) := Real.exp_log hNpos
  · show (mkAlphaGrid N).getD (r.next % (mkAlphaGrid N).length) 0 ∈ mkAlphaGrid N
    apply getD_mem_of_lt
    exact Nat.mod_lt _ (by rw [mkAlphaGrid_length]; omega)
  · show v.alpha_grid.getD (r2.next %
        (v.alpha_grid.map fun a => logp_crp_unorm v.Zr.length v.Nk.length a).length)
        0 ∈ v.alpha_grid
    apply getD_mem_of_lt
    rw [List.length_map]
    exact Nat.mod_lt _ (by omega)

/-- Closed instance: a freshly built 3-row view with unspecified
concentration has a 30-element grid spanning `[1/3, 3]`, draws its
concentration from the grid, and keeps resampling it inside the grid. -/
theorem c9_alpha_grid_resampling_witness :
    (mkAlphaGrid 3).length = 30 ∧
      (mkAlphaGrid 3).getD 0 0 = 1 / ((3 : ℕ) : ℝ) ∧
      (mkAlphaGrid 3).getD 29 0 = ((3 : ℕ) : ℝ) ∧
      (∀ x ∈ mkAlphaGrid 3, 1 / ((3 : ℕ) : ℝ) ≤ x ∧ x ≤ ((3 : ℕ) : ℝ)) ∧
      (View.init ([] : List (ℕ → ℕ)) 3 none [0, 0, 1] rng0).alpha_grid =
        mkAlphaGrid 3 ∧
      (View.init ([] : List (ℕ → ℕ)) 3 none [0, 0, 1] rng0).alpha ∈
        (View.init ([] : List (ℕ → ℕ)) 3 none [0, 0, 1] rng0).alpha_grid ∧
      (∀ v2 : View ℕ, Step (View.init ([] : List (ℕ → ℕ)) 3 none [0, 0, 1] rng0) v2 →
        v2.alpha_grid =
          (View.init ([] : List (ℕ → ℕ)) 3 none [0, 0, 1] rng0).alpha_grid) ∧
      ((View.init ([] : List (ℕ → ℕ)) 3 none [0, 0, 1] rng0).transition_alpha
          rng0).1.alpha_grid =
        (View.init ([] : List (ℕ → ℕ)) 3 none [0, 0, 1] rng0).alpha_grid ∧
      ((View.init ([] : List (ℕ → ℕ)) 3 none [0, 0, 1] rng0).transition_alpha
          rng0).1.alpha ∈
        (View.init ([] : List (ℕ → ℕ)) 3 none [0, 0, 1] rng0).alpha_grid :=
  c9_alpha_grid_resampling 3 (by omega)
    (View.init ([] : List (ℕ → ℕ)) 3 none [0, 0, 1] rng0) rng0 rng0 [] [0, 0, 1]
    (mkAlphaGrid_length 3)

end Cgpm
